import Mathlib

/-!
Verification of the dragon-curve generator (`dragon_curve.py`).

The polyline is embedded exactly as the program stores it: a 2×N array,
given here as the two rows `xs` (row 0) and `ys` (row 1).  The `i`-th
point of the polyline is the `i`-th column `(xs[i], ys[i])`, which is the
layout the program itself uses (`rot_mat.dot(coord)` rotates columns, and
the renderer plots `coords[0]` against `coords[1]`).  Machine floats are
modelled by exact reals.
-/

noncomputable section

/-- The 2×N coordinate array `coord`: row 0 holds the x-coordinates, row 1
the y-coordinates; the `i`-th point of the polyline is `(xs[i], ys[i])`. -/
structure Coord where
  xs : List ℝ
  ys : List ℝ

/-- `nb_corners(folds) = 2**folds - 1`. -/
def nb_corners (folds : ℕ) : ℤ := 2 ^ folds - 1

/-- `nb_folds(corners) = np.log2(corners + 1)`. -/
def nb_folds (corners : ℝ) : ℝ := Real.logb 2 (corners + 1)

/-- `is_even(num) = (num % 2 == 0)`; Python's `%` on integers agrees with
`Int.emod` (result has the sign of the divisor). -/
def is_even (num : ℤ) : Bool := num % 2 == 0

/-- `rotation_matrix(angle) = [[cos a, -sin a], [sin a, cos a]]`. -/
def rotation_matrix (angle : ℝ) : Matrix (Fin 2) (Fin 2) ℝ :=
  !![Real.cos angle, -Real.sin angle; Real.sin angle, Real.cos angle]

/-- Row 0 of `rot_coord = rotation_matrix(d*angle).dot(coord)`. -/
def rotXs (angle d : ℝ) (c : Coord) : List ℝ :=
  List.zipWith (fun x y =>
    rotation_matrix (d * angle) 0 0 * x + rotation_matrix (d * angle) 0 1 * y) c.xs c.ys

/-- Row 1 of `rot_coord = rotation_matrix(d*angle).dot(coord)`. -/
def rotYs (angle d : ℝ) (c : Coord) : List ℝ :=
  List.zipWith (fun x y =>
    rotation_matrix (d * angle) 1 0 * x + rotation_matrix (d * angle) 1 1 * y) c.xs c.ys

/-- x-component of `translation = rot_coord[:, 0] * [-1, -1]`. -/
def transX (angle d : ℝ) (c : Coord) : ℝ := -(rotXs angle d c).headI

/-- y-component of `translation = rot_coord[:, 0] * [-1, -1]`. -/
def transY (angle d : ℝ) (c : Coord) : ℝ := -(rotYs angle d c).headI

/-- One row of the concatenation step:
`np.append(row + t, rot_row[::-1][1:] + t)` (translate the original row,
then append the reversed rotated row with its first entry dropped, also
translated). -/
def stepRow (row rot : List ℝ) (t : ℝ) : List ℝ :=
  row.map (· + t) ++ (rot.reverse.tail.map (· + t))

/-- One iteration of the fold loop in `curve`. -/
def foldStep (angle d : ℝ) (c : Coord) : Coord :=
  ⟨stepRow c.xs (rotXs angle d c) (transX angle d c),
   stepRow c.ys (rotYs angle d c) (transY angle d c)⟩

/-- The initial array `coord = np.array([[0, 0], [1, 0]])`. -/
def dragonInit : Coord := ⟨[0, 0], [1, 0]⟩

/-- The direction used at 0-indexed fold step `f`:
`1 if is_even(f) else -1` when alternating, `1.0` otherwise. -/
def dirEntry (f : ℕ) (alternate : Bool) : ℝ :=
  if alternate then (if is_even f then 1 else -1) else 1

/-- The direction sequence for a non-negative fold count: the list built by
the `for f in range(folds)` loop when `alternate`, else `np.ones(folds)`. -/
def dirListNat (folds : ℕ) (alternate : Bool) : List ℝ :=
  if alternate then (List.range folds).map (fun (f : ℕ) => if is_even (f : ℤ) then 1 else -1)
  else List.replicate folds 1

/-- The direction sequence for an arbitrary integer fold count.  With
`alternate`, Python's `range(folds)` is empty for negative `folds`
(`Int.toNat` truncates); without it, `np.ones(folds)` raises `ValueError`
on a negative size, modelled as `none`. -/
def directionSeq (folds : ℤ) (alternate : Bool) : Option (List ℝ) :=
  if alternate then some (dirListNat folds.toNat true)
  else if folds < 0 then none
  else some (dirListNat folds.toNat false)

/-- `curve` for a non-negative fold count: fold the loop body over the
direction sequence, starting from `[[0, 0], [1, 0]]`. -/
def curveNat (folds : ℕ) (angle : ℝ) (alternate : Bool) : Coord :=
  (dirListNat folds alternate).foldl (fun c d => foldStep angle d c) dragonInit

/-- `curve(folds, angle, alternate)` on arbitrary integer fold counts;
`none` models the `ValueError` raised by `np.ones` on a negative size. -/
def curve (folds : ℤ) (angle : ℝ) (alternate : Bool) : Option Coord :=
  (directionSeq folds alternate).map
    (fun ds => ds.foldl (fun c d => foldStep angle d c) dragonInit)

/-- The loop state of `curve folds` after the first `k` iterations. -/
def curveState (folds k : ℕ) (angle : ℝ) (alternate : Bool) : Coord :=
  ((dirListNat folds alternate).take k).foldl (fun c d => foldStep angle d c) dragonInit

/-- The polyline as a list of points (the columns of the 2×N array). -/
def points (c : Coord) : List (ℝ × ℝ) := c.xs.zip c.ys

/-- Well-formedness: the two rows have equal length. -/
def WFCoord (c : Coord) : Prop := c.xs.length = c.ys.length

/-- The last point (last column) of the polyline. -/
def lastPoint (c : Coord) : ℝ × ℝ := (c.xs.getLastD 0, c.ys.getLastD 0)

/-- The point dropped by `[1:]` from the reversed rotated copy, after the
translation is applied: the first entry of `rot_coord[:, ::-1]`,
translated. -/
def droppedPoint (angle d : ℝ) (c : Coord) : ℝ × ℝ :=
  ((rotXs angle d c).reverse.headI + transX angle d c,
   (rotYs angle d c).reverse.headI + transY angle d c)

/-- The last point of the head segment (the original polyline shifted by
the translation). -/
def headLastPoint (angle d : ℝ) (c : Coord) : ℝ × ℝ :=
  ((c.xs.map (· + transX angle d c)).getLastD 0,
   (c.ys.map (· + transY angle d c)).getLastD 0)

/-- Every pair of consecutive points is at Euclidean distance exactly 1. -/
def UnitEdges (c : Coord) : Prop :=
  ∀ i : ℕ, i + 1 < c.xs.length →
    Real.sqrt ((c.xs.getD (i + 1) 0 - c.xs.getD i 0) ^ 2 +
      (c.ys.getD (i + 1) 0 - c.ys.getD i 0) ^ 2) = 1

/-- Squared form of `UnitEdges`, used in the inductive proofs. -/
def EdgeSqOne (c : Coord) : Prop :=
  ∀ i : ℕ, i + 1 < c.xs.length →
    (c.xs.getD (i + 1) 0 - c.xs.getD i 0) ^ 2 +
      (c.ys.getD (i + 1) 0 - c.ys.getD i 0) ^ 2 = 1

/-! ### Glue lemmas about list indexing -/

theorem getD_eq_getElem_zero (l : List ℝ) (i : ℕ) (h : i < l.length) :
    l.getD i 0 = l[i] := by
  simp [List.getD_eq_getElem?_getD, List.getElem?_eq_getElem h]

theorem headI_eq_getD (l : List ℝ) : l.headI = l.getD 0 0 := by
  cases l <;> rfl

theorem getLastD_eq_getD (l : List ℝ) : l.getLastD 0 = l.getD (l.length - 1) 0 := by
  rw [List.getLastD_eq_getLast?, List.getLast?_eq_getElem?, List.getD_eq_getElem?_getD]

theorem headI_reverse (l : List ℝ) : l.reverse.headI = l.getLastD 0 := by
  rw [headI_eq_getD, getLastD_eq_getD]
  rcases Nat.eq_zero_or_pos l.length with h | h
  · rw [List.length_eq_zero] at h; subst h; rfl
  · have h0 : 0 < l.reverse.length := by simpa using h
    rw [getD_eq_getElem_zero _ _ h0, getD_eq_getElem_zero _ _ (by omega),
      List.getElem_reverse]
    simp

/-! ### Entries of the rotation matrix -/

theorem rotation_matrix_00 (θ : ℝ) : rotation_matrix θ 0 0 = Real.cos θ := by
  simp [rotation_matrix]

theorem rotation_matrix_01 (θ : ℝ) : rotation_matrix θ 0 1 = -Real.sin θ := by
  simp [rotation_matrix]

theorem rotation_matrix_10 (θ : ℝ) : rotation_matrix θ 1 0 = Real.sin θ := by
  simp [rotation_matrix]

theorem rotation_matrix_11 (θ : ℝ) : rotation_matrix θ 1 1 = Real.cos θ := by
  simp [rotation_matrix]

/-! ### The rotated rows -/

theorem rotXs_length (angle d : ℝ) (c : Coord) (h : c.xs.length = c.ys.length) :
    (rotXs angle d c).length = c.xs.length := by
  simp [rotXs]; omega

theorem rotYs_length (angle d : ℝ) (c : Coord) (h : c.xs.length = c.ys.length) :
    (rotYs angle d c).length = c.xs.length := by
  simp [rotYs]; omega

theorem rotXs_getD (angle d : ℝ) (c : Coord) (i : ℕ)
    (hx : i < c.xs.length) (hy : i < c.ys.length) :
    (rotXs angle d c).getD i 0 =
      Real.cos (d * angle) * c.xs.getD i 0 - Real.sin (d * angle) * c.ys.getD i 0 := by
  have hlen : i < (rotXs angle d c).length := by simp [rotXs]; omega
  rw [getD_eq_getElem_zero _ _ hlen, getD_eq_getElem_zero _ _ hx, getD_eq_getElem_zero _ _ hy]
  simp only [rotXs, List.getElem_zipWith, rotation_matrix_00, rotation_matrix_01]
  ring

theorem rotYs_getD (angle d : ℝ) (c : Coord) (i : ℕ)
    (hx : i < c.xs.length) (hy : i < c.ys.length) :
    (rotYs angle d c).getD i 0 =
      Real.sin (d * angle) * c.xs.getD i 0 + Real.cos (d * angle) * c.ys.getD i 0 := by
  have hlen : i < (rotYs angle d c).length := by simp [rotYs]; omega
  rw [getD_eq_getElem_zero _ _ hlen, getD_eq_getElem_zero _ _ hx, getD_eq_getElem_zero _ _ hy]
  simp only [rotYs, List.getElem_zipWith, rotation_matrix_10, rotation_matrix_11]

/-! ### The concatenation step, row by row -/

theorem stepRow_length (row rot : List ℝ) (t : ℝ) :
    (stepRow row rot t).length = row.length + (rot.length - 1) := by
  simp [stepRow]

theorem stepRow_getD_left (row rot : List ℝ) (t : ℝ) (i : ℕ) (hi : i < row.length) :
    (stepRow row rot t).getD i 0 = row.getD i 0 + t := by
  have h1 : i < (stepRow row rot t).length := by rw [stepRow_length]; omega
  rw [getD_eq_getElem_zero _ _ h1, getD_eq_getElem_zero _ _ hi]
  simp only [stepRow]
  rw [List.getElem_append_left (by simpa using hi)]
  simp

theorem stepRow_getD_right (row rot : List ℝ) (t : ℝ) (i : ℕ)
    (hlen : rot.length = row.length) (h1 : row.length ≤ i) (h2 : i < 2 * row.length - 1) :
    (stepRow row rot t).getD i 0 = rot.getD (2 * row.length - 2 - i) 0 + t := by
  have hn : 1 ≤ row.length := by omega
  have htot : i < (stepRow row rot t).length := by rw [stepRow_length]; omega
  have hg : 2 * row.length - 2 - i < rot.length := by omega
  rw [getD_eq_getElem_zero _ _ htot, getD_eq_getElem_zero _ _ hg]
  simp only [stepRow]
  rw [List.getElem_append_right (by simpa using h1)]
  simp only [List.getElem_map, List.getElem_tail, List.getElem_reverse,
    List.length_map, List.length_reverse, List.length_tail]
  have hidx : rot.length - 1 - (i - row.length + 1) = 2 * row.length - 2 - i := by omega
  simp [hidx]

/-! ### The fold step -/

theorem foldStep_xs (angle d : ℝ) (c : Coord) :
    (foldStep angle d c).xs = stepRow c.xs (rotXs angle d c) (transX angle d c) := rfl

theorem foldStep_ys (angle d : ℝ) (c : Coord) :
    (foldStep angle d c).ys = stepRow c.ys (rotYs angle d c) (transY angle d c) := rfl

theorem foldStep_xs_length (angle d : ℝ) (c : Coord) (h : c.xs.length = c.ys.length) :
    (foldStep angle d c).xs.length = 2 * c.xs.length - 1 := by
  rw [foldStep_xs, stepRow_length, rotXs_length angle d c h]; omega

theorem foldStep_ys_length (angle d : ℝ) (c : Coord) (h : c.xs.length = c.ys.length) :
    (foldStep angle d c).ys.length = 2 * c.xs.length - 1 := by
  rw [foldStep_ys, stepRow_length, rotYs_length angle d c h]; omega

/-! ### The direction sequence -/

theorem dirListNat_true (folds : ℕ) :
    dirListNat folds true
      = (List.range folds).map (fun (f : ℕ) => if is_even (f : ℤ) then 1 else -1) := rfl

theorem dirListNat_false (folds : ℕ) :
    dirListNat folds false = List.replicate folds 1 := rfl

theorem dirListNat_length (folds : ℕ) (alternate : Bool) :
    (dirListNat folds alternate).length = folds := by
  cases alternate
  · rw [dirListNat_false, List.length_replicate]
  · rw [dirListNat_true, List.length_map, List.length_range]

theorem dirListNat_succ (f : ℕ) (alternate : Bool) :
    dirListNat (f + 1) alternate = dirListNat f alternate ++ [dirEntry f alternate] := by
  cases alternate
  · rw [dirListNat_false, dirListNat_false, List.replicate_succ']
    rfl
  · rw [dirListNat_true, dirListNat_true, List.range_succ, List.map_append]
    rfl

theorem dirListNat_getD_true (folds k : ℕ) (hk : k < folds) :
    (dirListNat folds true).getD k 0 = if is_even k then 1 else -1 := by
  have hlen : k < (dirListNat folds true).length := by rw [dirListNat_length]; omega
  rw [getD_eq_getElem_zero _ _ hlen]
  simp only [dirListNat_true, List.getElem_map, List.getElem_range]

theorem dirListNat_getD_false (folds k : ℕ) (hk : k < folds) :
    (dirListNat folds false).getD k 0 = 1 := by
  have hlen : k < (dirListNat folds false).length := by rw [dirListNat_length]; omega
  rw [getD_eq_getElem_zero _ _ hlen]
  simp only [dirListNat_false, List.getElem_replicate]

theorem dirListNat_take (folds k : ℕ) (alternate : Bool) (hk : k ≤ folds) :
    (dirListNat folds alternate).take k = dirListNat k alternate := by
  cases alternate
  · rw [dirListNat_false, dirListNat_false, List.take_replicate, Nat.min_eq_left hk]
  · rw [dirListNat_true, dirListNat_true, ← List.map_take, List.take_range,
      Nat.min_eq_left hk]

theorem curveState_eq_curveNat (folds k : ℕ) (angle : ℝ) (alternate : Bool)
    (hk : k ≤ folds) :
    curveState folds k angle alternate = curveNat k angle alternate := by
  rw [curveState, dirListNat_take folds k alternate hk, curveNat]

/-! ### The curve recurrence -/

theorem curveNat_zero (angle : ℝ) (alternate : Bool) :
    curveNat 0 angle alternate = dragonInit := by
  cases alternate <;> simp [curveNat, dirListNat]

theorem curveNat_succ (f : ℕ) (angle : ℝ) (alternate : Bool) :
    curveNat (f + 1) angle alternate
      = foldStep angle (dirEntry f alternate) (curveNat f angle alternate) := by
  unfold curveNat
  rw [dirListNat_succ, List.foldl_append]
  rfl

theorem curveNat_length (f : ℕ) (angle : ℝ) (alternate : Bool) :
    (curveNat f angle alternate).xs.length = 2 ^ f + 1 ∧
      (curveNat f angle alternate).ys.length = 2 ^ f + 1 := by
  induction f with
  | zero => rw [curveNat_zero]; exact ⟨rfl, rfl⟩
  | succ f ih =>
    obtain ⟨hx, hy⟩ := ih
    have hwf : (curveNat f angle alternate).xs.length
        = (curveNat f angle alternate).ys.length := by rw [hx, hy]
    have hpow : 2 ^ (f + 1) = 2 * 2 ^ f := by rw [pow_succ]; ring
    rw [curveNat_succ]
    constructor
    · rw [foldStep_xs_length _ _ _ hwf, hx]; omega
    · rw [foldStep_ys_length _ _ _ hwf, hx]; omega

theorem curve_natCast (f : ℕ) (angle : ℝ) (alternate : Bool) :
    curve (f : ℤ) (angle) (alternate) = some (curveNat f angle alternate) := by
  cases alternate <;>
    simp [curve, directionSeq, curveNat, Int.toNat_natCast]

/-! ### The last point is always the origin -/

theorem lastPoint_foldStep (angle d : ℝ) (c : Coord)
    (hwf : c.xs.length = c.ys.length) (h2 : 2 ≤ c.xs.length) :
    lastPoint (foldStep angle d c) = (0, 0) := by
  have hxlen := foldStep_xs_length angle d c hwf
  have hylen := foldStep_ys_length angle d c hwf
  have hrx := rotXs_length angle d c hwf
  have hry := rotYs_length angle d c hwf
  unfold lastPoint
  rw [getLastD_eq_getD, getLastD_eq_getD, hxlen, hylen, foldStep_xs, foldStep_ys,
    stepRow_getD_right _ _ _ _ hrx (by omega) (by omega),
    stepRow_getD_right _ _ _ _ (by omega) (by omega) (by omega)]
  have hx0 : 2 * c.xs.length - 2 - (2 * c.xs.length - 1 - 1) = 0 := by omega
  have hy0 : 2 * c.ys.length - 2 - (2 * c.xs.length - 1 - 1) = 0 := by omega
  rw [hx0, hy0]
  rw [transX, transY, headI_eq_getD, headI_eq_getD]
  simp

theorem lastPoint_curveNat (f : ℕ) (angle : ℝ) (alternate : Bool) :
    lastPoint (curveNat f angle alternate) = (0, 0) := by
  induction f with
  | zero => rw [curveNat_zero]; rfl
  | succ f _ =>
    obtain ⟨hx, hy⟩ := curveNat_length f angle alternate
    rw [curveNat_succ]
    refine lastPoint_foldStep _ _ _ (by rw [hx, hy]) ?_
    rw [hx]
    have : 1 ≤ 2 ^ f := Nat.one_le_two_pow
    omega

/-! ### Unit-length edges -/

theorem rot_norm_sq (θ x y : ℝ) :
    (Real.cos θ * x - Real.sin θ * y) ^ 2 + (Real.sin θ * x + Real.cos θ * y) ^ 2
      = x ^ 2 + y ^ 2 := by
  have h : (Real.cos θ * x - Real.sin θ * y) ^ 2 + (Real.sin θ * x + Real.cos θ * y) ^ 2
      = (Real.sin θ ^ 2 + Real.cos θ ^ 2) * (x ^ 2 + y ^ 2) := by ring
  rw [h, Real.sin_sq_add_cos_sq, one_mul]

theorem edgeSqOne_foldStep (angle d : ℝ) (c : Coord)
    (hwf : c.xs.length = c.ys.length) (h2 : 2 ≤ c.xs.length)
    (hlast : lastPoint c = (0, 0)) (hu : EdgeSqOne c) :
    EdgeSqOne (foldStep angle d c) := by
  intro i hi
  have hxlen := foldStep_xs_length angle d c hwf
  have hrx := rotXs_length angle d c hwf
  have hry := rotYs_length angle d c hwf
  rw [hxlen] at hi
  have hlx : c.xs.getD (c.xs.length - 1) 0 = 0 := by
    have h := congrArg Prod.fst hlast
    simp only [lastPoint] at h
    rw [getLastD_eq_getD] at h
    exact h
  have hly : c.ys.getD (c.xs.length - 1) 0 = 0 := by
    have h := congrArg Prod.snd hlast
    simp only [lastPoint] at h
    rw [getLastD_eq_getD] at h
    rw [hwf]
    exact h
  rw [foldStep_xs, foldStep_ys]
  by_cases hA : i + 1 < c.xs.length
  · -- both indices in the head segment
    rw [stepRow_getD_left _ _ _ _ (by omega), stepRow_getD_left _ _ _ _ (by omega),
      stepRow_getD_left _ _ _ _ (by omega), stepRow_getD_left _ _ _ _ (by omega)]
    have h1 := hu i (by omega)
    linear_combination h1
  by_cases hB : i + 1 = c.xs.length
  · -- the junction edge between head and tail
    rw [stepRow_getD_right c.xs _ _ (i + 1) hrx (by omega) (by omega),
      stepRow_getD_left c.xs _ _ i (by omega),
      stepRow_getD_right c.ys _ _ (i + 1) (by rw [hry, hwf]) (by omega) (by omega),
      stepRow_getD_left c.ys _ _ i (by omega)]
    rw [show 2 * c.ys.length - 2 - (i + 1) = c.xs.length - 2 by omega,
      show 2 * c.xs.length - 2 - (i + 1) = c.xs.length - 2 by omega,
      show i = c.xs.length - 1 by omega,
      rotXs_getD _ _ _ _ (by omega) (by omega), rotYs_getD _ _ _ _ (by omega) (by omega),
      hlx, hly]
    have h1 := hu (c.xs.length - 2) (by omega)
    rw [show c.xs.length - 2 + 1 = c.xs.length - 1 by omega, hlx, hly] at h1
    have hr := rot_norm_sq (d * angle) (c.xs.getD (c.xs.length - 2) 0)
      (c.ys.getD (c.xs.length - 2) 0)
    linear_combination hr + h1
  · -- both indices in the tail segment
    have hi3 : c.xs.length ≤ i := by omega
    rw [stepRow_getD_right _ _ _ _ hrx (by omega) (by omega),
      stepRow_getD_right _ _ _ _ hrx (by omega) (by omega),
      stepRow_getD_right _ _ _ _ (by rw [hry, hwf]) (by omega) (by omega),
      stepRow_getD_right _ _ _ _ (by rw [hry, hwf]) (by omega) (by omega)]
    rw [show 2 * c.ys.length - 2 - (i + 1) = 2 * c.xs.length - 3 - i by omega,
      show 2 * c.ys.length - 2 - i = 2 * c.xs.length - 2 - i by omega,
      show 2 * c.xs.length - 2 - (i + 1) = 2 * c.xs.length - 3 - i by omega]
    rw [rotXs_getD _ _ _ _ (by omega) (by omega), rotXs_getD _ _ _ _ (by omega) (by omega),
      rotYs_getD _ _ _ _ (by omega) (by omega), rotYs_getD _ _ _ _ (by omega) (by omega)]
    have h1 := hu (2 * c.xs.length - 3 - i) (by omega)
    rw [show 2 * c.xs.length - 3 - i + 1 = 2 * c.xs.length - 2 - i by omega] at h1
    have hr := rot_norm_sq (d * angle)
      (c.xs.getD (2 * c.xs.length - 3 - i) 0 - c.xs.getD (2 * c.xs.length - 2 - i) 0)
      (c.ys.getD (2 * c.xs.length - 3 - i) 0 - c.ys.getD (2 * c.xs.length - 2 - i) 0)
    linear_combination hr + h1

theorem edgeSqOne_dragonInit : EdgeSqOne dragonInit := by
  intro i hi
  have hi0 : i = 0 := by simp [dragonInit] at hi; omega
  subst hi0
  norm_num [dragonInit]

theorem edgeSqOne_curveNat (f : ℕ) (angle : ℝ) (alternate : Bool) :
    EdgeSqOne (curveNat f angle alternate) := by
  induction f with
  | zero => rw [curveNat_zero]; exact edgeSqOne_dragonInit
  | succ f ih =>
    obtain ⟨hx, hy⟩ := curveNat_length f angle alternate
    rw [curveNat_succ]
    refine edgeSqOne_foldStep _ _ _ (by rw [hx, hy]) ?_ (lastPoint_curveNat f angle alternate) ih
    rw [hx]
    have : 1 ≤ 2 ^ f := Nat.one_le_two_pow
    omega

theorem unitEdges_of_edgeSqOne (c : Coord) (h : EdgeSqOne c) : UnitEdges c := by
  intro i hi
  rw [Real.sqrt_eq_one]
  exact h i hi

/-! ### Differences of head points are invariant under a fold step -/

theorem foldStep_getD_x_head (angle d : ℝ) (c : Coord) (i : ℕ) (hi : i < c.xs.length) :
    (foldStep angle d c).xs.getD i 0 = c.xs.getD i 0 + transX angle d c := by
  rw [foldStep_xs]; exact stepRow_getD_left _ _ _ _ hi

theorem foldStep_getD_y_head (angle d : ℝ) (c : Coord) (i : ℕ) (hi : i < c.ys.length) :
    (foldStep angle d c).ys.getD i 0 = c.ys.getD i 0 + transY angle d c := by
  rw [foldStep_ys]; exact stepRow_getD_left _ _ _ _ hi

theorem delta3_curveNat (f : ℕ) (hf : 2 ≤ f) (angle : ℝ) (alternate : Bool) :
    ((curveNat f angle alternate).xs.getD 3 0 - (curveNat f angle alternate).xs.getD 0 0
      = (curveNat 2 angle alternate).xs.getD 3 0 - (curveNat 2 angle alternate).xs.getD 0 0) ∧
    ((curveNat f angle alternate).ys.getD 3 0 - (curveNat f angle alternate).ys.getD 0 0
      = (curveNat 2 angle alternate).ys.getD 3 0 - (curveNat 2 angle alternate).ys.getD 0 0) := by
  induction f, hf using Nat.le_induction with
  | base => exact ⟨rfl, rfl⟩
  | succ f hf ih =>
    obtain ⟨hx, hy⟩ := curveNat_length f angle alternate
    have hpow : 4 ≤ 2 ^ f := by
      calc (4 : ℕ) = 2 ^ 2 := by norm_num
      _ ≤ 2 ^ f := Nat.pow_le_pow_right (by norm_num) hf
    have h3x : 3 < (curveNat f angle alternate).xs.length := by omega
    have h0x : 0 < (curveNat f angle alternate).xs.length := by omega
    have h3y : 3 < (curveNat f angle alternate).ys.length := by omega
    have h0y : 0 < (curveNat f angle alternate).ys.length := by omega
    rw [curveNat_succ]
    constructor
    · rw [foldStep_getD_x_head _ _ _ _ h3x, foldStep_getD_x_head _ _ _ _ h0x]
      rw [add_sub_add_right_eq_sub]
      exact ih.1
    · rw [foldStep_getD_y_head _ _ _ _ h3y, foldStep_getD_y_head _ _ _ _ h0y]
      rw [add_sub_add_right_eq_sub]
      exact ih.2

/-! ### Concrete evaluation at the default right angle -/

theorem dirEntry_false (f : ℕ) : dirEntry f false = 1 := rfl

theorem dirEntry_zero_true : dirEntry 0 true = 1 := by
  simp [dirEntry, is_even]

theorem dirEntry_one_true : dirEntry 1 true = -1 := by
  simp [dirEntry, is_even]

theorem curveNat_one (angle : ℝ) (alternate : Bool) :
    curveNat 1 angle alternate = foldStep angle (dirEntry 0 alternate) dragonInit := by
  show curveNat (0 + 1) angle alternate = _
  rw [curveNat_succ, curveNat_zero]

theorem curveNat_two (angle : ℝ) (alternate : Bool) :
    curveNat 2 angle alternate
      = foldStep angle (dirEntry 1 alternate) (foldStep angle (dirEntry 0 alternate) dragonInit) := by
  show curveNat (1 + 1) angle alternate = _
  rw [curveNat_succ, curveNat_one]

theorem step1_pi_half :
    foldStep (Real.pi / 2) 1 dragonInit = ⟨[1, 1, 0], [1, 0, 0]⟩ := by
  have hc : Real.cos ((1 : ℝ) * (Real.pi / 2)) = 0 := by
    rw [one_mul]; exact Real.cos_pi_div_two
  have hs : Real.sin ((1 : ℝ) * (Real.pi / 2)) = 1 := by
    rw [one_mul]; exact Real.sin_pi_div_two
  simp only [foldStep, stepRow, rotXs, rotYs, transX, transY,
    rotation_matrix_00, rotation_matrix_01, rotation_matrix_10, rotation_matrix_11,
    hc, hs, dragonInit]
  norm_num

theorem step2_pi_half_pos :
    foldStep (Real.pi / 2) 1 ⟨[1, 1, 0], [1, 0, 0]⟩ = ⟨[2, 2, 1, 1, 0], [0, -1, -1, 0, 0]⟩ := by
  have hc : Real.cos ((1 : ℝ) * (Real.pi / 2)) = 0 := by
    rw [one_mul]; exact Real.cos_pi_div_two
  have hs : Real.sin ((1 : ℝ) * (Real.pi / 2)) = 1 := by
    rw [one_mul]; exact Real.sin_pi_div_two
  simp only [foldStep, stepRow, rotXs, rotYs, transX, transY,
    rotation_matrix_00, rotation_matrix_01, rotation_matrix_10, rotation_matrix_11,
    hc, hs]
  norm_num

theorem step2_pi_half_neg :
    foldStep (Real.pi / 2) (-1) ⟨[1, 1, 0], [1, 0, 0]⟩ = ⟨[0, 0, -1, -1, 0], [2, 1, 1, 0, 0]⟩ := by
  have hc : Real.cos ((-1 : ℝ) * (Real.pi / 2)) = 0 := by
    rw [neg_one_mul, Real.cos_neg]; exact Real.cos_pi_div_two
  have hs : Real.sin ((-1 : ℝ) * (Real.pi / 2)) = -1 := by
    rw [neg_one_mul, Real.sin_neg, Real.sin_pi_div_two]
  simp only [foldStep, stepRow, rotXs, rotYs, transX, transY,
    rotation_matrix_00, rotation_matrix_01, rotation_matrix_10, rotation_matrix_11,
    hc, hs]
  norm_num

theorem curveNat_two_false_eval :
    curveNat 2 (Real.pi / 2) false = ⟨[2, 2, 1, 1, 0], [0, -1, -1, 0, 0]⟩ := by
  rw [curveNat_two, dirEntry_false, dirEntry_false, step1_pi_half, step2_pi_half_pos]

theorem curveNat_two_true_eval :
    curveNat 2 (Real.pi / 2) true = ⟨[0, 0, -1, -1, 0], [2, 1, 1, 0, 0]⟩ := by
  rw [curveNat_two, dirEntry_zero_true, dirEntry_one_true, step1_pi_half, step2_pi_half_neg]

/-! ### The dropped tail point coincides with the head's last point -/

theorem getD_map_add (l : List ℝ) (t : ℝ) (i : ℕ) (hi : i < l.length) :
    (l.map (· + t)).getD i 0 = l.getD i 0 + t := by
  have h : i < (l.map (· + t)).length := by simpa using hi
  rw [getD_eq_getElem_zero _ _ h, getD_eq_getElem_zero _ _ hi, List.getElem_map]

theorem dropped_eq_headLast (angle d : ℝ) (c : Coord)
    (hwf : c.xs.length = c.ys.length) (h1 : 1 ≤ c.xs.length)
    (hlast : lastPoint c = (0, 0)) :
    droppedPoint angle d c = headLastPoint angle d c := by
  have hrx := rotXs_length angle d c hwf
  have hry := rotYs_length angle d c hwf
  have hlx : c.xs.getD (c.xs.length - 1) 0 = 0 := by
    have h := congrArg Prod.fst hlast
    simp only [lastPoint] at h
    rw [getLastD_eq_getD] at h
    exact h
  have hly : c.ys.getD (c.xs.length - 1) 0 = 0 := by
    have h := congrArg Prod.snd hlast
    simp only [lastPoint] at h
    rw [getLastD_eq_getD] at h
    rw [hwf]
    exact h
  have hdx : (rotXs angle d c).reverse.headI = 0 := by
    rw [headI_reverse, getLastD_eq_getD, hrx,
      rotXs_getD _ _ _ _ (by omega) (by omega), hlx, hly]
    ring
  have hdy : (rotYs angle d c).reverse.headI = 0 := by
    rw [headI_reverse, getLastD_eq_getD, hry,
      rotYs_getD _ _ _ _ (by omega) (by omega), hlx, hly]
    ring
  have hhx : (c.xs.map (· + transX angle d c)).getLastD 0 = transX angle d c := by
    rw [getLastD_eq_getD, List.length_map, getD_map_add _ _ _ (by omega), hlx, zero_add]
  have hhy : (c.ys.map (· + transY angle d c)).getLastD 0 = transY angle d c := by
    rw [getLastD_eq_getD, List.length_map, ← hwf, getD_map_add _ _ _ (by omega), hly, zero_add]
  rw [droppedPoint, headLastPoint, hdx, hdy, hhx, hhy, zero_add, zero_add]

/-! ### Parity glue -/

theorem is_even_coe (k : ℕ) : is_even (k : ℤ) = true ↔ k % 2 = 0 := by
  simp only [is_even, beq_iff_eq]
  omega

theorem dirEntry_eq_getD (folds k : ℕ) (hk : k < folds) (alternate : Bool) :
    (dirListNat folds alternate).getD k 0 = dirEntry k alternate := by
  cases alternate
  · rw [dirListNat_getD_false folds k hk]; rfl
  · rw [dirListNat_getD_true folds k hk]; rfl

/-! ## The claims -/

/-- Claim C1: for every non-negative integer fold count, every angle and both
values of the alternation flag, `curve` returns a polyline with exactly
`2 ^ folds + 1` points (both coordinate rows have that length). -/
theorem curve_point_count (folds : ℕ) (angle : ℝ) (alternate : Bool) :
    curve (folds : ℤ) angle alternate = some (curveNat folds angle alternate) ∧
    (curveNat folds angle alternate).xs.length = 2 ^ folds + 1 ∧
    (curveNat folds angle alternate).ys.length = 2 ^ folds + 1 :=
  ⟨curve_natCast folds angle alternate, (curveNat_length folds angle alternate).1,
    (curveNat_length folds angle alternate).2⟩

/-- Claim C2: in every fold iteration of `curve`, the point dropped from the
tail segment (the first point of the reversed rotated-and-translated copy)
coincides with the last point of the head segment (the original polyline
shifted by the same translation), and the new polyline has exactly
`2 * (previous length) - 1` points. -/
theorem fold_iteration_shared_corner (folds k : ℕ) (hk : k < folds)
    (angle : ℝ) (alternate : Bool) :
    droppedPoint angle (dirEntry k alternate) (curveState folds k angle alternate)
      = headLastPoint angle (dirEntry k alternate) (curveState folds k angle alternate) ∧
    curveState folds (k + 1) angle alternate
      = foldStep angle (dirEntry k alternate) (curveState folds k angle alternate) ∧
    (curveState folds (k + 1) angle alternate).xs.length
      = 2 * (curveState folds k angle alternate).xs.length - 1 := by
  have h1 := curveState_eq_curveNat folds k angle alternate (le_of_lt hk)
  have h2 := curveState_eq_curveNat folds (k + 1) angle alternate hk
  rw [h1, h2, curveNat_succ]
  obtain ⟨hx, hy⟩ := curveNat_length k angle alternate
  have hwf : (curveNat k angle alternate).xs.length
      = (curveNat k angle alternate).ys.length := by rw [hx, hy]
  have hpos : 1 ≤ (curveNat k angle alternate).xs.length := by
    rw [hx]; exact Nat.le_add_left 1 (2 ^ k)
  refine ⟨dropped_eq_headLast _ _ _ hwf hpos (lastPoint_curveNat k angle alternate),
    rfl, ?_⟩
  rw [foldStep_xs_length _ _ _ hwf]

/-- Claim C2 witness at `folds = 1`, `k = 0`, `angle = 0`, `alternate = false`. -/
theorem fold_iteration_shared_corner_witness :
    0 < 1 ∧
    (droppedPoint 0 (dirEntry 0 false) (curveState 1 0 0 false)
        = headLastPoint 0 (dirEntry 0 false) (curveState 1 0 0 false) ∧
      curveState 1 (0 + 1) 0 false
        = foldStep 0 (dirEntry 0 false) (curveState 1 0 0 false) ∧
      (curveState 1 (0 + 1) 0 false).xs.length
        = 2 * (curveState 1 0 0 false).xs.length - 1) :=
  ⟨by decide, fold_iteration_shared_corner 1 0 (by decide) 0 false⟩

/-- Claim C3, counterexample: with `alternate = true` a negative fold count
is NOT rejected — `curve (-1)` silently returns the initial two-point
segment instead of failing. -/
theorem curve_negative_folds_cex :
    curve (-1) 0 true = some dragonInit ∧ curve (-1) 0 true ≠ none := by
  have h : curve (-1) 0 true = some dragonInit := rfl
  exact ⟨h, by rw [h]; simp⟩

/-- Claim C3, amended: for every negative fold count, `curve` with
`alternate = false` fails explicitly (the `np.ones(folds)` call rejects a
negative size), but with `alternate = true` the `range(folds)` loop is
empty and `curve` silently returns the initial two-point segment. -/
theorem curve_negative_folds (folds : ℤ) (h : folds < 0) (angle : ℝ) :
    curve folds angle false = none ∧ curve folds angle true = some dragonInit := by
  constructor
  · simp [curve, directionSeq, h]
  · have h0 : folds.toNat = 0 := Int.toNat_of_nonpos (le_of_lt h)
    simp [curve, directionSeq, h0, dirListNat, curveNat]

/-- Claim C3 witness at `folds = -1`, `angle = 0`. -/
theorem curve_negative_folds_witness :
    (-1 : ℤ) < 0 ∧
    (curve (-1) 0 false = none ∧ curve (-1) 0 true = some dragonInit) :=
  ⟨by decide, curve_negative_folds (-1) (by decide) 0⟩

/-- Claim C4: the direction sequence has one entry per fold step; with
`alternate = true` the entry at 0-indexed step `k` is `+1` for even `k` and
`-1` for odd `k`; with `alternate = false` every entry is `+1`; and fold
iteration `k` applies `foldStep` with exactly that entry (whose rotation is
`rotation_matrix (entry * angle)` by definition of `foldStep`). -/
theorem direction_sequence_policy (folds k : ℕ) (hk : k < folds)
    (angle : ℝ) (alternate : Bool) :
    (dirListNat folds alternate).length = folds ∧
    (dirListNat folds true).getD k 0 = (if k % 2 = 0 then 1 else -1) ∧
    (dirListNat folds false).getD k 0 = 1 ∧
    curveState folds (k + 1) angle alternate
      = foldStep angle ((dirListNat folds alternate).getD k 0)
          (curveState folds k angle alternate) := by
  refine ⟨dirListNat_length folds alternate, ?_, dirListNat_getD_false folds k hk, ?_⟩
  · rw [dirListNat_getD_true folds k hk]
    by_cases hpar : k % 2 = 0 <;> simp [is_even_coe, hpar]
  · rw [dirEntry_eq_getD folds k hk,
      curveState_eq_curveNat folds k angle alternate (le_of_lt hk),
      curveState_eq_curveNat folds (k + 1) angle alternate hk, curveNat_succ]

/-- Claim C4 witness at `folds = 2`, `k = 1`, `angle = 0`, `alternate = true`. -/
theorem direction_sequence_policy_witness :
    1 < 2 ∧
    ((dirListNat 2 true).length = 2 ∧
      (dirListNat 2 true).getD 1 0 = (if 1 % 2 = 0 then 1 else -1) ∧
      (dirListNat 2 false).getD 1 0 = 1 ∧
      curveState 2 (1 + 1) 0 true
        = foldStep 0 ((dirListNat 2 true).getD 1 0) (curveState 2 1 0 true)) :=
  ⟨by decide, direction_sequence_policy 2 1 (by decide) 0 true⟩

/-- Claim C5, counterexample: `curve(0)` returns the raw initial array, but
under the program's column-per-point layout its points are NOT
`(0,0), (1,0)` — the first point is `(0,1)`. -/
theorem curve_zero_points_cex :
    curve 0 0 false = some dragonInit ∧ points dragonInit ≠ [(0, 0), (1, 0)] := by
  refine ⟨rfl, ?_⟩
  norm_num [points, dragonInit]

/-- Claim C5, amended: for every angle and both alternation flags,
`curve 0` returns the initial two-point segment unchanged — the 2×2 array
with x-row `[0, 0]` and y-row `[1, 0]`; under the column-per-point layout
the program uses, its points are `(0, 1)` followed by `(0, 0)` (rather than
`(0, 0)` followed by `(1, 0)`). -/
theorem curve_zero_initial_segment (angle : ℝ) (alternate : Bool) :
    curve 0 angle alternate = some dragonInit ∧
    dragonInit.xs = [0, 0] ∧ dragonInit.ys = [1, 0] ∧
    points dragonInit = [(0, 1), (0, 0)] := by
  have h := curve_natCast 0 angle alternate
  rw [curveNat_zero] at h
  refine ⟨by simpa using h, rfl, rfl, rfl⟩

/-- Claim C6: for every fold count `f ≥ 2`, at the default right angle the
alternating and non-alternating curves differ (they are not point-wise
equal). -/
theorem alternation_changes_geometry (f : ℕ) (hf : 2 ≤ f) :
    curve (f : ℤ) (Real.pi / 2) true ≠ curve (f : ℤ) (Real.pi / 2) false := by
  rw [curve_natCast, curve_natCast]
  intro h
  have h' : curveNat f (Real.pi / 2) true = curveNat f (Real.pi / 2) false :=
    Option.some.inj h
  have d3t := delta3_curveNat f hf (Real.pi / 2) true
  have d3f := delta3_curveNat f hf (Real.pi / 2) false
  have hy : (curveNat 2 (Real.pi / 2) true).ys.getD 3 0
        - (curveNat 2 (Real.pi / 2) true).ys.getD 0 0
      = (curveNat 2 (Real.pi / 2) false).ys.getD 3 0
        - (curveNat 2 (Real.pi / 2) false).ys.getD 0 0 := by
    rw [← d3t.2, ← d3f.2, h']
  rw [curveNat_two_true_eval, curveNat_two_false_eval] at hy
  norm_num at hy

/-- Claim C6 witness at `f = 2`. -/
theorem alternation_changes_geometry_witness :
    2 ≤ 2 ∧
    curve ((2 : ℕ) : ℤ) (Real.pi / 2) true ≠ curve ((2 : ℕ) : ℤ) (Real.pi / 2) false :=
  ⟨by decide, alternation_changes_geometry 2 (by decide)⟩

/-- Claim C7: `nb_folds (nb_corners f) = f` for every non-negative integer
`f` (exactly, in real arithmetic), and `nb_corners` takes the values
0, 1, 3, 7, 15 at `f = 0, 1, 2, 3, 4`. -/
theorem nb_folds_nb_corners_roundtrip (f : ℕ) :
    nb_folds ((nb_corners f : ℤ) : ℝ) = f ∧
    nb_corners 0 = 0 ∧ nb_corners 1 = 1 ∧ nb_corners 2 = 3 ∧
    nb_corners 3 = 7 ∧ nb_corners 4 = 15 := by
  refine ⟨?_, by decide, by decide, by decide, by decide, by decide⟩
  unfold nb_folds nb_corners
  push_cast
  rw [show ((2 : ℝ) ^ f - 1 + 1) = 2 ^ f by ring,
    show ((2 : ℝ) ^ f) = (2 : ℝ) ^ (f : ℝ) by rw [Real.rpow_natCast],
    Real.logb_rpow (by norm_num) (by norm_num)]

/-- Claim C8: `rotation_matrix` is the standard counter-clockwise rotation
matrix `[[cos t, -sin t], [sin t, cos t]]`; at angle 0 it is the identity
matrix, and at angle pi/2 it maps `(1, 0)` to `(0, 1)`. -/
theorem rotation_matrix_spec (θ : ℝ) :
    rotation_matrix θ = !![Real.cos θ, -Real.sin θ; Real.sin θ, Real.cos θ] ∧
    rotation_matrix 0 = 1 ∧
    (rotation_matrix (Real.pi / 2)).mulVec ![1, 0] = ![0, 1] := by
  refine ⟨rfl, ?_, ?_⟩
  · ext i j
    fin_cases i <;> fin_cases j <;>
      simp [rotation_matrix, Matrix.one_apply]
  · funext i
    fin_cases i <;>
      simp [rotation_matrix, Matrix.mulVec, Matrix.dotProduct, Fin.sum_univ_succ,
        Real.cos_pi_div_two, Real.sin_pi_div_two]

/-- Claim C9 (implicit invariant): under the program's 2-row layout, the
last point of the polyline is the origin initially and after every fold
iteration, for every angle and both alternation modes. -/
theorem last_point_origin_invariant (f : ℕ) (angle : ℝ) (alternate : Bool) :
    lastPoint dragonInit = (0, 0) ∧ lastPoint (curveNat f angle alternate) = (0, 0) :=
  ⟨rfl, lastPoint_curveNat f angle alternate⟩

/-- Claim C10 (implicit invariant): in exact real arithmetic, every pair of
consecutive points of the polyline returned by `curve` is at Euclidean
distance exactly 1, for every fold count, every angle and both alternation
modes. -/
theorem unit_edge_length_invariant (folds : ℕ) (angle : ℝ) (alternate : Bool) :
    curve (folds : ℤ) angle alternate = some (curveNat folds angle alternate) ∧
    UnitEdges (curveNat folds angle alternate) :=
  ⟨curve_natCast folds angle alternate,
    unitEdges_of_edgeSqOne _ (edgeSqOne_curveNat folds angle alternate)⟩

end
